import Mathlib

/-!
Verification of the `hdfs-common` crate core: the error taxonomy
(`src/crates/hdfs-common/src/error.rs`), the path normalizer
(`src/crates/hdfs-common/src/path.rs`) and the identifier allocator
(`src/crates/hdfs-common/src/ids.rs`), shallowly embedded in Lean.
Strings are modelled as Lean `String`/`List Char`; `u64`/`u32`/`u128`
values are `Nat` with explicit `% 2 ^ w` where the code can wrap.
-/

deriving instance DecidableEq for Except

namespace Hdfs

/-! ## error.rs -/

/-- Embedding of `HdfsError` (error.rs).  `Io` wraps the inner error's display
text; `ChecksumMismatch` holds a `BlockId` (a `u64`), a `u64` chunk index and
two `u32` checksums, all modelled as `Nat`. -/
inductive HdfsError where
  | io (inner : String)
  | config (key : String) (msg : String)
  | invalidPath (path : String) (reason : String)
  | alreadyExists (path : String)
  | notFound (path : String)
  | state (what : String) (details : String)
  | protocol (op : String) (details : String)
  | checksumMismatch (block : Nat) (chunkIndex : Nat) (expected : Nat) (got : Nat)
  | timeout (op : String) (during : String)
  deriving DecidableEq

/-- Lowercase hex digit, as Rust `{:x}` renders one nibble. -/
def hexDigitLower (n : Nat) : Char :=
  if n < 10 then Char.ofNat (48 + n) else Char.ofNat (87 + n)

/-- Uppercase hex digit, as Rust `{:X}` renders one nibble. -/
def hexDigitUpper (n : Nat) : Char :=
  if n < 10 then Char.ofNat (48 + n) else Char.ofNat (55 + n)

/-- Digits of `n` in base 16, most significant first, no leading zeros;
empty for `n = 0`.  This is the recursion Rust's hex formatter performs. -/
def hexAux (digit : Nat → Char) (n : Nat) : List Char :=
  if h : n = 0 then [] else hexAux digit (n / 16) ++ [digit (n % 16)]
termination_by n
decreasing_by exact Nat.div_lt_self (Nat.pos_of_ne_zero h) (by norm_num)

/-- Rust `{:x}` / `{:X}`: minimal (unpadded) hex rendering, `"0"` for zero. -/
def unpaddedHex (digit : Nat → Char) (n : Nat) : List Char :=
  if n = 0 then ['0'] else hexAux digit n

/-- Rust's `{:0w…}` zero padding: left-pad with `'0'` to width `w`. -/
def padZeros (w : Nat) (cs : List Char) : List Char :=
  List.replicate (w - cs.length) '0' ++ cs

/-- Display text of each `HdfsError` variant, from the `#[error(...)]`
templates in error.rs.  `{expected:08X}` is minimal uppercase hex zero-padded
to width 8; `blk_{block}` interpolates the `BlockId`'s decimal display. -/
def HdfsError.display : HdfsError → String
  | .io inner => "io: " ++ inner
  | .config key msg => "config error (" ++ key ++ "): " ++ msg
  | .invalidPath path reason => "invalid path '" ++ path ++ "': " ++ reason
  | .alreadyExists path => "already exists: " ++ path
  | .notFound path => "not found: " ++ path
  | .state what details => "state error (" ++ what ++ "): " ++ details
  | .protocol op details => "protocol error (" ++ op ++ "): " ++ details
  | .checksumMismatch block chunkIndex expected got =>
      "checksum mismatch (blk_" ++ Nat.repr block ++ ", chunk " ++ Nat.repr chunkIndex ++
      "): expected 0x" ++ String.mk (padZeros 8 (unpaddedHex hexDigitUpper expected)) ++
      ", got 0x" ++ String.mk (padZeros 8 (unpaddedHex hexDigitUpper got))
  | .timeout op during => "timeout during " ++ op ++ ": " ++ during

/-! ## path.rs -/

def MAX_NAME_LEN : Nat := 255

def MAX_PATH_LEN : Nat := 4096

/-- Rust `char::is_control`: the Unicode `Cc` category,
`U+0000..=U+001F` and `U+007F..=U+009F`. -/
def isRustControl (c : Char) : Bool :=
  c.toNat ≤ 0x1F || (0x7F ≤ c.toNat && c.toNat ≤ 0x9F)

/-- `has_forbidden` (path.rs): NUL, any control character, or `U+00F7`. -/
def has_forbidden (c : Char) : Bool :=
  c.toNat == 0 || (isRustControl c || c.toNat == 0xF7)

/-- Rust `str::len` / `as_bytes().len()`: UTF-8 byte length of a char list. -/
def utf8Len (cs : List Char) : Nat :=
  (cs.map Char.utf8Size).sum

/-- Rust `str::split(sep)`: `n` separators yield `n + 1` pieces, empty pieces
included. -/
def splitChar (sep : Char) : List Char → List (List Char)
  | [] => [[]]
  | c :: cs =>
    if c = sep then [] :: splitChar sep cs
    else
      match splitChar sep cs with
      | [] => [[c]]
      | s :: rest => (c :: s) :: rest

/-- The segment loop of `normalize` (path.rs): skip empty and `"."` segments,
pop on `".."` (no-op on an empty stack), reject an over-long segment, push the
rest.  The stack grows at its tail, as Rust's `Vec` does. -/
def procSegs (stack : List (List Char)) : List (List Char) → Except String (List (List Char))
  | [] => .ok stack
  | seg :: rest =>
    if seg = [] ∨ seg = ['.'] then procSegs stack rest
    else if seg = ['.', '.'] then procSegs stack.dropLast rest
    else if MAX_NAME_LEN < utf8Len seg then .error "segement too long"
    else procSegs (stack ++ [seg]) rest

/-- Rust `Vec::join("/")` on the segment stack. -/
def joinSegs : List (List Char) → List Char
  | [] => []
  | [s] => s
  | s :: rest => s ++ '/' :: joinSegs rest

/-- Assembly step of `normalize`: `"/"` for an empty stack, otherwise `'/'`
followed by the joined stack. -/
def assemble (stack : List (List Char)) : List Char :=
  if stack = [] then ['/'] else '/' :: joinSegs stack

/-- Rust `str::starts_with('/')`. -/
def startsWithSlash : List Char → Bool
  | [] => false
  | c :: _ => c == '/'

/-- A canonical segment: what the stack can contain after a successful run of
the segment loop. -/
def plainSeg (seg : List Char) : Prop :=
  seg ≠ [] ∧ seg ≠ ['.'] ∧ seg ≠ ['.', '.'] ∧ utf8Len seg ≤ MAX_NAME_LEN

/-- `normalize` (path.rs): reject relative paths, then forbidden characters,
then run the segment stack, assemble, and reject an over-long result. -/
def normalize (input : String) : Except HdfsError String :=
  if startsWithSlash input.data then
    if input.data.any has_forbidden then
      .error (.invalidPath input "control character not allowed")
    else
      match procSegs [] (splitChar '/' input.data) with
      | .error r => .error (.invalidPath input r)
      | .ok stack =>
        if MAX_PATH_LEN < utf8Len (assemble stack) then
          .error (.invalidPath input "path too long")
        else
          .ok (String.mk (assemble stack))
  else
    .error (.invalidPath input "must be absolut")

/-! ## ids.rs -/

def U64 : Nat := 2 ^ 64

/-- `INodeId` (ids.rs): a newtype over `u64`. -/
structure INodeId where
  val : Nat
  deriving DecidableEq

/-- `BlockId` (ids.rs): a newtype over `u64`. -/
structure BlockId where
  val : Nat
  deriving DecidableEq

/-- `IdGen` (ids.rs): two `u64` counters.  The atomics are modelled as plain
state threaded explicitly; the claims quantify over sequential call chains. -/
structure IdGen where
  inode : Nat
  block : Nat
  deriving DecidableEq

def IdGen.new (start_inode start_block : Nat) : IdGen :=
  ⟨start_inode, start_block⟩

/-- `next_inode`: `fetch_add(1)` returns the old value; the stored counter
wraps as a `u64` does. -/
def IdGen.next_inode (g : IdGen) : INodeId × IdGen :=
  (⟨g.inode⟩, ⟨(g.inode + 1) % U64, g.block⟩)

/-- `next_block`: same over the independent block counter. -/
def IdGen.next_block (g : IdGen) : BlockId × IdGen :=
  (⟨g.block⟩, ⟨g.inode, (g.block + 1) % U64⟩)

/-- `peek_inode`: a pure load of the inode counter. -/
def IdGen.peek_inode (g : IdGen) : Nat :=
  g.inode

/-- `peek_block`: a pure load of the block counter. -/
def IdGen.peek_block (g : IdGen) : Nat :=
  g.block

/-- State after `n` sequential `next_inode` calls. -/
def IdGen.iterInode (g : IdGen) : Nat → IdGen
  | 0 => g
  | n + 1 => (IdGen.iterInode g n).next_inode.2

/-- State after `n` sequential `next_block` calls. -/
def IdGen.iterBlock (g : IdGen) : Nat → IdGen
  | 0 => g
  | n + 1 => (IdGen.iterBlock g n).next_block.2

/-- Big-endian fixed-width hex: the `k` digits `n / 16 ^ (k - 1) % 16, …,
n % 16`.  For `n < 16 ^ k` this is the `k`-digit zero-padded rendering. -/
def hexDigitsBE (digit : Nat → Char) : Nat → Nat → List Char
  | 0, _ => []
  | k + 1, n => digit (n / 16 ^ k % 16) :: hexDigitsBE digit k n

/-- The `uuid` crate's `Simple` lowercase encoding used by `DatanodeId::short`
(ids.rs): the 128-bit value as exactly 32 lowercase hex digits (zero-padded),
no hyphens — the buffer in the source is `[0u8; uuid::fmt::Simple::LENGTH]`,
32 bytes. -/
def encodeSimpleLower (n : Nat) : List Char :=
  hexDigitsBE hexDigitLower 32 n

/-- `DatanodeId::short` (ids.rs): the first 8 characters of the Simple
lowercase encoding.  The identifier value is a `u128` modelled as `Nat`. -/
def DatanodeId.short (n : Nat) : String :=
  String.mk ((encodeSimpleLower n).take 8)

/-- Value of one hex digit character (either case). -/
def hexVal (c : Char) : Nat :=
  if c.toNat ≤ 57 then c.toNat - 48
  else if c.toNat ≤ 70 then c.toNat - 55
  else c.toNat - 87

def isHexDigitChar (c : Char) : Bool :=
  (48 ≤ c.toNat && c.toNat ≤ 57) || (65 ≤ c.toNat && c.toNat ≤ 70) ||
    (97 ≤ c.toNat && c.toNat ≤ 102)

def isLowerHexChar (c : Char) : Bool :=
  (48 ≤ c.toNat && c.toNat ≤ 57) || (97 ≤ c.toNat && c.toNat ≤ 102)

/-- Big-endian hex decoding. -/
def hexDecode (cs : List Char) : Nat :=
  cs.foldl (fun a c => a * 16 + hexVal c) 0

/-- `Uuid::parse_str` (uuid crate, called by `DatanodeId::from_str`) on the
hyphenated form the spec names: 36 characters, hyphens at positions
8, 13, 18, 23, hex digits elsewhere, decoded big-endian. -/
def uuidOk (cs : List Char) : Bool :=
  cs.length == 36 &&
    (List.range 36).all fun i =>
      if i == 8 || i == 13 || i == 18 || i == 23 then cs.getD i ' ' == '-'
      else isHexDigitChar (cs.getD i ' ')

def uuidParseStr (cs : List Char) : Option Nat :=
  if uuidOk cs then some (hexDecode (cs.filter fun c => c != '-')) else none

/-- Rust `char::is_whitespace`: the Unicode `White_Space` property. -/
def isRustWhitespace (c : Char) : Bool :=
  (9 ≤ c.toNat && c.toNat ≤ 13) || c.toNat == 32 || c.toNat == 0x85 ||
    c.toNat == 0xA0 || c.toNat == 0x1680 ||
    (0x2000 ≤ c.toNat && c.toNat ≤ 0x200A) || c.toNat == 0x2028 ||
    c.toNat == 0x2029 || c.toNat == 0x202F || c.toNat == 0x205F ||
    c.toNat == 0x3000

/-- Rust `str::trim`: drop whitespace from both ends. -/
def rustTrim (cs : List Char) : List Char :=
  ((cs.dropWhile isRustWhitespace).reverse.dropWhile isRustWhitespace).reverse

/-- `DatanodeId::from_str` (ids.rs): `Uuid::parse_str(s.trim())`. -/
def DatanodeId.from_str (s : String) : Option Nat :=
  uuidParseStr (rustTrim s.data)

/-! ## Allocator lemmas -/

set_option maxRecDepth 40000

theorem IdGen.iterInode_spec (si sb : Nat) : ∀ j, si + j < U64 →
    (IdGen.iterInode (IdGen.new si sb) j).inode = si + j ∧
    (IdGen.iterInode (IdGen.new si sb) j).block = sb := by
  intro j
  induction j with
  | zero => intro _; exact ⟨rfl, rfl⟩
  | succ j ih =>
    intro h
    obtain ⟨h1, h2⟩ := ih (by omega)
    refine ⟨?_, ?_⟩ <;>
      simp [IdGen.iterInode, IdGen.next_inode, h1, h2,
        Nat.mod_eq_of_lt (show si + j + 1 < U64 by omega)]
    omega

theorem IdGen.iterBlock_spec (si sb : Nat) : ∀ j, sb + j < U64 →
    (IdGen.iterBlock (IdGen.new si sb) j).block = sb + j ∧
    (IdGen.iterBlock (IdGen.new si sb) j).inode = si := by
  intro j
  induction j with
  | zero => intro _; exact ⟨rfl, rfl⟩
  | succ j ih =>
    intro h
    obtain ⟨h1, h2⟩ := ih (by omega)
    refine ⟨?_, ?_⟩ <;>
      simp [IdGen.iterBlock, IdGen.next_block, h1, h2,
        Nat.mod_eq_of_lt (show sb + j + 1 < U64 by omega)]
    omega

/-- C1: after `IdGen::new(s_i, s_b)` the k-th sequential `next_inode` call
returns `INodeId(s_i + k - 1)`, the k-th sequential `next_block` call returns
`BlockId(s_b + k - 1)`, after `m` calls to `next_inode` the observational
`peek_inode` returns `s_i + m`, and each counter's allocation leaves the other
counter unchanged.  The range hypotheses keep the `u64` counters clear of
wrap-around, which the spec treats as unreachable. -/
theorem C1_idgen_progression (si sb k m : Nat) (hk : 1 ≤ k)
    (hik : si + k ≤ U64) (hbk : sb + k ≤ U64) (him : si + m < U64) :
    (IdGen.iterInode (IdGen.new si sb) (k - 1)).next_inode.1 = ⟨si + (k - 1)⟩ ∧
    (IdGen.iterBlock (IdGen.new si sb) (k - 1)).next_block.1 = ⟨sb + (k - 1)⟩ ∧
    IdGen.peek_inode (IdGen.iterInode (IdGen.new si sb) m) = si + m ∧
    (∀ g : IdGen, g.next_block.2.inode = g.inode ∧ g.next_inode.2.block = g.block) := by
  refine ⟨?_, ?_, ?_, fun g => ⟨rfl, rfl⟩⟩
  · have := (IdGen.iterInode_spec si sb (k - 1) (by omega)).1
    simp [IdGen.next_inode, this]
  · have := (IdGen.iterBlock_spec si sb (k - 1) (by omega)).1
    simp [IdGen.next_block, this]
  · exact (IdGen.iterInode_spec si sb m him).1

/-- C1 witness: `IdGen::new(1, 1)`, two inode allocations return 1 then 2,
and `peek_inode` after them returns 3 (`id_gen_next` / `id_gen_peek`). -/
theorem C1_idgen_progression_witness :
    (IdGen.iterInode (IdGen.new 1 1) 0).next_inode.1 = ⟨1⟩ ∧
    (IdGen.iterInode (IdGen.new 1 1) 1).next_inode.1 = ⟨2⟩ ∧
    IdGen.peek_inode (IdGen.iterInode (IdGen.new 1 1) 2) = 3 :=
  ⟨(C1_idgen_progression 1 1 1 2 (by decide) (by decide) (by decide) (by decide)).1,
   (C1_idgen_progression 1 1 2 2 (by decide) (by decide) (by decide) (by decide)).1,
   (C1_idgen_progression 1 1 1 2 (by decide) (by decide) (by decide) (by decide)).2.2.1⟩

/-! ## Path normalizer lemmas -/

theorem splitChar_ne_nil (sep : Char) (cs : List Char) : splitChar sep cs ≠ [] := by
  induction cs with
  | nil => simp [splitChar]
  | cons c cs ih =>
    simp only [splitChar]
    split
    · simp
    · cases h : splitChar sep cs with
      | nil => simp
      | cons s rest => simp

theorem splitChar_mem {sep : Char} {cs : List Char} :
    ∀ p ∈ splitChar sep cs, ∀ c ∈ p, c ∈ cs ∧ ¬ c = sep := by
  induction cs with
  | nil =>
    intro p hp c hc
    simp only [splitChar, List.mem_singleton] at hp
    subst hp
    simp at hc
  | cons a cs ih =>
    intro p hp c hc
    simp only [splitChar] at hp
    by_cases ha : a = sep
    · rw [if_pos ha] at hp
      rcases List.mem_cons.mp hp with h | h
      · subst h; simp at hc
      · obtain ⟨h1, h2⟩ := ih p h c hc
        exact ⟨List.mem_cons_of_mem _ h1, h2⟩
    · rw [if_neg ha] at hp
      cases hs : splitChar sep cs with
      | nil => exact absurd hs (splitChar_ne_nil sep cs)
      | cons s rest =>
        rw [hs] at hp
        rcases List.mem_cons.mp hp with h | h
        · subst h
          rcases List.mem_cons.mp hc with h' | h'
          · subst h'
            exact ⟨List.mem_cons_self _ _, ha⟩
          · obtain ⟨h1, h2⟩ := ih s (hs ▸ List.mem_cons_self s rest) c h'
            exact ⟨List.mem_cons_of_mem _ h1, h2⟩
        · obtain ⟨h1, h2⟩ := ih p (hs ▸ List.mem_cons_of_mem s h) c hc
          exact ⟨List.mem_cons_of_mem _ h1, h2⟩

theorem splitChar_eq_single {sep : Char} {cs : List Char} (h : sep ∉ cs) :
    splitChar sep cs = [cs] := by
  induction cs with
  | nil => simp [splitChar]
  | cons a cs ih =>
    have ha : ¬ a = sep := fun e => h (e ▸ List.mem_cons_self a cs)
    have hcs : sep ∉ cs := fun e => h (List.mem_cons_of_mem a e)
    simp only [splitChar, if_neg ha, ih hcs]

theorem splitChar_append {sep : Char} {t : List Char} :
    ∀ {s : List Char}, sep ∉ s → splitChar sep (s ++ sep :: t) = s :: splitChar sep t := by
  intro s
  induction s with
  | nil =>
    intro _
    simp [splitChar]
  | cons a s ih =>
    intro h
    have ha : ¬ a = sep := fun e => h (e ▸ List.mem_cons_self a s)
    have hs : sep ∉ s := fun e => h (List.mem_cons_of_mem a e)
    simp only [List.cons_append, splitChar, if_neg ha]
    rw [List.append_eq, ih hs]

theorem joinSegs_cons_cons (s t : List Char) (rest : List (List Char)) :
    joinSegs (s :: t :: rest) = s ++ '/' :: joinSegs (t :: rest) := rfl

theorem splitChar_joinSegs :
    ∀ {stack : List (List Char)}, stack ≠ [] → (∀ p ∈ stack, '/' ∉ p) →
      splitChar '/' (joinSegs stack) = stack := by
  intro stack
  induction stack with
  | nil => intro h _; exact absurd rfl h
  | cons s rest ih =>
    intro _ hp
    cases rest with
    | nil =>
      show splitChar '/' (joinSegs [s]) = [s]
      exact splitChar_eq_single (hp s (List.mem_cons_self s []))
    | cons t r =>
      rw [joinSegs_cons_cons]
      rw [splitChar_append (hp s (List.mem_cons_self _ _))]
      rw [ih (by simp) (fun p h => hp p (List.mem_cons_of_mem s h))]

theorem joinSegs_mem :
    ∀ {stack : List (List Char)}, ∀ c ∈ joinSegs stack, c = '/' ∨ ∃ p ∈ stack, c ∈ p := by
  intro stack
  induction stack with
  | nil => intro c hc; simp [joinSegs] at hc
  | cons s rest ih =>
    intro c hc
    cases rest with
    | nil =>
      right
      exact ⟨s, List.mem_cons_self s [], hc⟩
    | cons t r =>
      rw [joinSegs_cons_cons] at hc
      rcases List.mem_append.mp hc with h | h
      · exact Or.inr ⟨s, List.mem_cons_self _ _, h⟩
      · rcases List.mem_cons.mp h with h' | h'
        · exact Or.inl h'
        · rcases ih c h' with h'' | ⟨p, hp, hcp⟩
          · exact Or.inl h''
          · exact Or.inr ⟨p, List.mem_cons_of_mem s hp, hcp⟩

theorem procSegs_ok_mem {segs : List (List Char)} :
    ∀ {st out}, procSegs st segs = .ok out → ∀ p ∈ out, p ∈ st ∨ p ∈ segs := by
  induction segs with
  | nil =>
    intro st out h p hp
    simp only [procSegs, Except.ok.injEq] at h
    exact Or.inl (h ▸ hp)
  | cons seg rest ih =>
    intro st out h p hp
    simp only [procSegs] at h
    split at h
    · rcases ih h p hp with h' | h'
      · exact Or.inl h'
      · exact Or.inr (List.mem_cons_of_mem _ h')
    · split at h
      · rcases ih h p hp with h' | h'
        · exact Or.inl (List.dropLast_subset _ h')
        · exact Or.inr (List.mem_cons_of_mem _ h')
      · split at h
        · exact absurd h (by simp)
        · rcases ih h p hp with h' | h'
          · rcases List.mem_append.mp h' with h'' | h''
            · exact Or.inl h''
            · simp only [List.mem_singleton] at h''
              exact Or.inr (h'' ▸ List.mem_cons_self _ _)
          · exact Or.inr (List.mem_cons_of_mem _ h')

theorem procSegs_ok_plain {segs : List (List Char)} :
    ∀ {st out}, procSegs st segs = .ok out → (∀ p ∈ st, plainSeg p) →
      ∀ p ∈ out, plainSeg p := by
  induction segs with
  | nil =>
    intro st out h hst p hp
    simp only [procSegs, Except.ok.injEq] at h
    exact hst p (h ▸ hp)
  | cons seg rest ih =>
    intro st out h hst p hp
    simp only [procSegs] at h
    split at h
    · exact ih h hst p hp
    · split at h
      · exact ih h (fun q hq => hst q (List.dropLast_subset _ hq)) p hp
      · split at h
        · exact absurd h (by simp)
        · refine ih h ?_ p hp
          intro q hq
          rcases List.mem_append.mp hq with h' | h'
          · exact hst q h'
          · simp only [List.mem_singleton] at h'
            subst h'
            rename_i hne hdd hlen
            push_neg at hne
            exact ⟨hne.1, hne.2, hdd, by omega⟩

theorem procSegs_all_plain {segs : List (List Char)} (h : ∀ p ∈ segs, plainSeg p) :
    ∀ st, procSegs st segs = .ok (st ++ segs) := by
  induction segs with
  | nil => intro st; simp [procSegs]
  | cons seg rest ih =>
    intro st
    obtain ⟨h1, h2, h3, h4⟩ := h seg (List.mem_cons_self _ _)
    simp only [procSegs, if_neg (by tauto : ¬ (seg = [] ∨ seg = ['.'])), if_neg h3,
      if_neg (Nat.not_lt.mpr h4)]
    rw [ih (fun p hp => h p (List.mem_cons_of_mem _ hp))]
    simp

theorem procSegs_error_reason {segs : List (List Char)} :
    ∀ {st r}, procSegs st segs = .error r → r = "segement too long" := by
  induction segs with
  | nil => intro st r h; simp [procSegs] at h
  | cons seg rest ih =>
    intro st r h
    simp only [procSegs] at h
    split at h
    · exact ih h
    · split at h
      · exact ih h
      · split at h
        · simp only [Except.error.injEq] at h
          exact h.symm
        · exact ih h

theorem procSegs_long_error {segs : List (List Char)} {q : List Char} (hq : q ∈ segs)
    (h2 : q ≠ ['.', '.']) (h3 : MAX_NAME_LEN < utf8Len q) :
    ∀ st, procSegs st segs = .error "segement too long" := by
  induction segs with
  | nil => simp at hq
  | cons seg rest ih =>
    intro st
    have hqne : q ≠ [] := by
      intro e
      rw [e] at h3
      simp [utf8Len] at h3
    have hqd : q ≠ ['.'] := by
      intro e
      rw [e] at h3
      have h4 : utf8Len ['.'] = 1 := by decide
      have h5 : MAX_NAME_LEN = 255 := rfl
      omega
    simp only [procSegs]
    split
    · rename_i hcase
      have : q ∈ rest := by
        rcases List.mem_cons.mp hq with h | h
        · rcases hcase with e | e
          · exact absurd (h.trans e) hqne
          · exact absurd (h.trans e) hqd
        · exact h
      exact ih this _
    · split
      · rename_i hdd
        have : q ∈ rest := by
          rcases List.mem_cons.mp hq with h | h
          · exact absurd (h.trans hdd) h2
          · exact h
        exact ih this _
      · split
        · rfl
        · rename_i hlen
          have : q ∈ rest := by
            rcases List.mem_cons.mp hq with h | h
            · subst h; omega
            · exact h
          exact ih this _

theorem normalize_eq_ok {s n : String} (h : normalize s = .ok n) :
    ∃ stack, startsWithSlash s.data = true ∧ s.data.any has_forbidden = false ∧
      procSegs [] (splitChar '/' s.data) = .ok stack ∧
      n.data = assemble stack ∧ utf8Len (assemble stack) ≤ MAX_PATH_LEN := by
  unfold normalize at h
  split at h
  · split at h
    · exact absurd h (by simp)
    · rename_i h1 h2
      cases hp : procSegs [] (splitChar '/' s.data) with
      | error r => rw [hp] at h; exact absurd h (by simp)
      | ok stack =>
        rw [hp] at h
        simp only at h
        split at h
        · exact absurd h (by simp)
        · rename_i h4
          simp only [Except.ok.injEq] at h
          refine ⟨stack, by assumption, by simpa using h2, rfl, ?_, Nat.not_lt.mp h4⟩
          rw [← h]
  · exact absurd h (by simp)

theorem normalize_build {d : List Char} {stack : List (List Char)}
    (h1 : startsWithSlash d = true) (h2 : d.any has_forbidden = false)
    (h3 : procSegs [] (splitChar '/' d) = .ok stack)
    (h4 : utf8Len (assemble stack) ≤ MAX_PATH_LEN) (h5 : assemble stack = d) :
    normalize (String.mk d) = .ok (String.mk d) := by
  unfold normalize
  show (if startsWithSlash d then _ else _) = _
  rw [if_pos h1, if_neg (by simp [h2]), h3]
  simp only
  rw [if_neg (Nat.not_lt.mpr h4), h5]

theorem normalize_ok_stack_plain {s : String} {stack : List (List Char)}
    (h3 : procSegs [] (splitChar '/' s.data) = .ok stack) :
    (∀ p ∈ stack, plainSeg p) ∧ (∀ p ∈ stack, '/' ∉ p) ∧
      (∀ p ∈ stack, ∀ c ∈ p, c ∈ s.data) := by
  refine ⟨procSegs_ok_plain h3 (by simp), ?_, ?_⟩
  · intro p hp hc
    rcases procSegs_ok_mem h3 p hp with h | h
    · simp at h
    · exact (splitChar_mem p h '/' hc).2 rfl
  · intro p hp c hc
    rcases procSegs_ok_mem h3 p hp with h | h
    · simp at h
    · exact (splitChar_mem p h c hc).1

theorem assemble_forbidden_false {s : String} {stack : List (List Char)}
    (h2 : s.data.any has_forbidden = false)
    (hmem : ∀ p ∈ stack, ∀ c ∈ p, c ∈ s.data) :
    ∀ c ∈ assemble stack, has_forbidden c = false := by
  intro c hc
  have hall : ∀ c ∈ s.data, has_forbidden c = false := by
    intro c' hc'
    by_contra hb
    have : s.data.any has_forbidden = true :=
      List.any_eq_true.mpr ⟨c', hc', by revert hb; cases has_forbidden c' <;> simp⟩
    rw [this] at h2
    exact absurd h2 (by simp)
  unfold assemble at hc
  split at hc
  · simp only [List.mem_singleton] at hc
    subst hc
    decide
  · rcases List.mem_cons.mp hc with h | h
    · subst h
      decide
    · rcases joinSegs_mem c h with h' | ⟨p, hp, hcp⟩
      · subst h'
        decide
      · exact hall c (hmem p hp c hcp)

theorem splitChar_assemble {stack : List (List Char)} (hne : stack ≠ [])
    (hnosl : ∀ p ∈ stack, '/' ∉ p) :
    splitChar '/' (assemble stack) = [] :: stack := by
  have ha : assemble stack = '/' :: joinSegs stack := by
    simp [assemble, hne]
  rw [ha]
  have hs : splitChar '/' ('/' :: joinSegs stack) =
      [] :: splitChar '/' (joinSegs stack) := by
    simp [splitChar]
  rw [hs, splitChar_joinSegs hne hnosl]

/-- C2: normalization is idempotent — whenever `normalize s` succeeds with
`n`, `normalize n` succeeds and returns `n` itself. -/
theorem C2_normalize_idempotent (s n : String) (h : normalize s = .ok n) :
    normalize n = .ok n := by
  obtain ⟨stack, h1, h2, h3, h4, h5⟩ := normalize_eq_ok h
  obtain ⟨hplain, hnosl, hmem⟩ := normalize_ok_stack_plain (s := s) h3
  have hforb : ∀ c ∈ assemble stack, has_forbidden c = false :=
    assemble_forbidden_false h2 hmem
  cases n with
  | mk d =>
    have h4' : d = assemble stack := h4
    subst h4'
    cases stack with
    | nil =>
      show normalize (String.mk (assemble [])) = _
      decide
    | cons q qs =>
      refine normalize_build ?_ ?_ ?_ h5 rfl
      · simp [assemble, startsWithSlash]
      · rw [List.any_eq_false]
        intro c hc
        simp [hforb c hc]
      · rw [splitChar_assemble (by simp) hnosl]
        have hskip : procSegs [] ([] :: q :: qs) = procSegs [] (q :: qs) := by
          simp [procSegs]
        rw [hskip, procSegs_all_plain hplain []]
        simp

/-- C2 witness: the repository's own idempotence example
(`normalize_is_idempotent` in path.rs): `"/a//b/../c/./d/"` normalizes to
`"/a/c/d"`, which re-normalizes to itself. -/
theorem C2_normalize_idempotent_witness :
    normalize "/a//b/../c/./d/" = .ok "/a/c/d" ∧ normalize "/a/c/d" = .ok "/a/c/d" :=
  ⟨by decide, C2_normalize_idempotent "/a//b/../c/./d/" "/a/c/d" (by decide)⟩

/-- C4 counterexample: the claim maps `"/a//b/../c/./d/"` to `"/a/b/c/d"`,
but the code's `".."` pops the pushed `"b"`, so `normalize` returns
`"/a/c/d"` on that input. -/
theorem C4_counterexample :
    normalize "/a//b/../c/./d/" = .ok "/a/c/d" ∧
    ¬ normalize "/a//b/../c/./d/" = .ok "/a/b/c/d" := by
  decide

/-- C4 amended: `normalize` maps `"/a//b/../c/./d/"` to `"/a/c/d"` (the
`".."` pops `"b"`), `"/a/b/../c"` to `"/a/c"`, `"/../a"` to `"/a"`,
`"/a/../../.."` to `"/"`, and `"a/b"` to an `InvalidPath` error with reason
`"must be absolut"`; a `".."` on an empty stack pops nothing and is never an
error. -/
theorem C4_literal_scenarios :
    normalize "/a//b/../c/./d/" = .ok "/a/c/d" ∧
    normalize "/a/b/../c" = .ok "/a/c" ∧
    normalize "/../a" = .ok "/a" ∧
    normalize "/a/../../.." = .ok "/" ∧
    normalize "a/b" = .error (.invalidPath "a/b" "must be absolut") ∧
    (∀ rest : List (List Char),
      procSegs [] (['.', '.'] :: rest) = procSegs [] rest) := by
  refine ⟨by decide, by decide, by decide, by decide, by decide, fun rest => ?_⟩
  simp [procSegs]

/-- C5: rejection checks run in a fixed order — any input not starting with
`'/'` is rejected with reason `"must be absolut"` whatever else is wrong with
it, and any input starting with `'/'` that contains a NUL or control
character is rejected with reason `"control character not allowed"` even when
it also has an over-long segment. -/
theorem C5_rejection_order (s : String) :
    (startsWithSlash s.data = false →
      normalize s = .error (.invalidPath s "must be absolut")) ∧
    (startsWithSlash s.data = true →
      (∃ c ∈ s.data, c.toNat = 0 ∨ isRustControl c = true) →
      normalize s = .error (.invalidPath s "control character not allowed")) := by
  constructor
  · intro h1
    unfold normalize
    rw [if_neg (by simp [h1])]
  · intro h1 h2
    obtain ⟨c, hc, hforb⟩ := h2
    have hany : s.data.any has_forbidden = true := by
      refine List.any_eq_true.mpr ⟨c, hc, ?_⟩
      unfold has_forbidden
      rcases hforb with h | h
      · simp [h]
      · simp [h]
    unfold normalize
    rw [if_pos h1, if_pos (by simp [hany])]

/-- C5 witness: a relative input with both a control character and a 256-byte
segment still reports `"must be absolut"`, and an absolute input with both a
control character and a 256-byte segment still reports
`"control character not allowed"`. -/
theorem C5_rejection_order_witness :
    normalize (String.mk ('a' :: Char.ofNat 1 :: '/' :: List.replicate 256 'b')) =
      .error (.invalidPath (String.mk ('a' :: Char.ofNat 1 :: '/' :: List.replicate 256 'b'))
        "must be absolut") ∧
    normalize (String.mk ('/' :: Char.ofNat 1 :: '/' :: List.replicate 256 'b')) =
      .error (.invalidPath (String.mk ('/' :: Char.ofNat 1 :: '/' :: List.replicate 256 'b'))
        "control character not allowed") :=
  ⟨(C5_rejection_order _).1 (by decide),
   (C5_rejection_order _).2 (by decide) (by decide)⟩

/-- C7: every `normalize` failure carries the original input string untouched
in the error's `path` field, for each of the four rejection reasons. -/
theorem C7_error_carries_input (s : String) (e : HdfsError)
    (h : normalize s = .error e) :
    ∃ reason, e = .invalidPath s reason ∧
      (reason = "must be absolut" ∨ reason = "control character not allowed" ∨
        reason = "segement too long" ∨ reason = "path too long") := by
  unfold normalize at h
  split at h
  · split at h
    · simp only [Except.error.injEq] at h
      exact ⟨_, h.symm, Or.inr (Or.inl rfl)⟩
    · cases hp : procSegs [] (splitChar '/' s.data) with
      | error r =>
        rw [hp] at h
        simp only [Except.error.injEq] at h
        have := procSegs_error_reason hp
        subst this
        exact ⟨_, h.symm, Or.inr (Or.inr (Or.inl rfl))⟩
      | ok stack =>
        rw [hp] at h
        simp only at h
        split at h
        · simp only [Except.error.injEq] at h
          exact ⟨_, h.symm, Or.inr (Or.inr (Or.inr rfl))⟩
        · exact absurd h (by simp)
  · simp only [Except.error.injEq] at h
    exact ⟨_, h.symm, Or.inl rfl⟩

/-- C7 witness: the relative input `"a/b"` comes back verbatim in the error. -/
theorem C7_error_carries_input_witness :
    ∃ reason, HdfsError.invalidPath "a/b" "must be absolut" =
        .invalidPath "a/b" reason ∧
      (reason = "must be absolut" ∨ reason = "control character not allowed" ∨
        reason = "segement too long" ∨ reason = "path too long") :=
  C7_error_carries_input "a/b" (.invalidPath "a/b" "must be absolut") (by decide)

/-- C6: with the absolute and control-character checks passed, an input
containing a non-`"."`/`".."` segment of more than 255 bytes is rejected with
reason exactly `"segement too long"`; an input whose segments are all within
limit but whose assembled canonical result exceeds 4096 bytes is rejected
with reason exactly `"path too long"` — the bound is checked on the
assembled result. -/
theorem C6_length_limits (s : String)
    (habs : startsWithSlash s.data = true)
    (hctl : s.data.any has_forbidden = false) :
    ((∃ p ∈ splitChar '/' s.data,
        p ≠ ['.'] ∧ p ≠ ['.', '.'] ∧ MAX_NAME_LEN < utf8Len p) →
      normalize s = .error (.invalidPath s "segement too long")) ∧
    (∀ stack, (∀ p ∈ splitChar '/' s.data, utf8Len p ≤ MAX_NAME_LEN) →
      procSegs [] (splitChar '/' s.data) = .ok stack →
      MAX_PATH_LEN < utf8Len (assemble stack) →
      normalize s = .error (.invalidPath s "path too long")) := by
  constructor
  · rintro ⟨p, hp, _, h2, h3⟩
    unfold normalize
    rw [if_pos habs, if_neg (by simp [hctl]), procSegs_long_error hp h2 h3 []]
  · intro stack _ hok hlen
    unfold normalize
    rw [if_pos habs, if_neg (by simp [hctl]), hok]
    simp only
    rw [if_pos hlen]

/-- C6 witness: a 256-byte segment is rejected as `"segement too long"`, and
17 segments of 63 four-byte characters (252 bytes each, all within the
segment limit) assemble to 4301 bytes and are rejected as `"path too long"`. -/
theorem C6_length_limits_witness :
    normalize (String.mk ('/' :: List.replicate 256 'a')) =
      .error (.invalidPath (String.mk ('/' :: List.replicate 256 'a'))
        "segement too long") ∧
    normalize (String.mk
        ('/' :: (List.replicate 17 (List.replicate 63 (Char.ofNat 65536) ++ ['/'])).flatten)) =
      .error (.invalidPath (String.mk
        ('/' :: (List.replicate 17 (List.replicate 63 (Char.ofNat 65536) ++ ['/'])).flatten))
        "path too long") :=
  ⟨(C6_length_limits _ (by decide) (by decide)).1 (by decide),
   (C6_length_limits _ (by decide) (by decide)).2
     (List.replicate 17 (List.replicate 63 (Char.ofNat 65536)))
     (by decide) (by decide) (by decide)⟩

/-- C3 counterexample: the claim says splitting a successful result on `'/'`
yields no empty segment besides the leading one, but the root result `"/"`
splits into two empty segments, the trailing one empty and not leading. -/
theorem C3_counterexample :
    normalize "/" = .ok "/" ∧
    ¬ (∀ p ∈ (splitChar '/' (String.data "/")).tail, ¬ p = []) := by
  decide

/-- C3 amended: every successful result starts with `'/'`; for the root
result `"/"` splitting on `'/'` yields exactly two empty segments (leading
and trailing), and for every other result splitting yields a leading empty
segment followed only by segments that are not `""`, `"."` or `".."`; the
result has no NUL and no control characters, every segment is at most 255
bytes, and the whole result is at most 4096 bytes. -/
theorem C3_normal_form_invariant (s n : String) (h : normalize s = .ok n) :
    startsWithSlash n.data = true ∧
    (n = "/" → splitChar '/' n.data = [[], []]) ∧
    (¬ n = "/" → (splitChar '/' n.data).head? = some [] ∧
      ∀ p ∈ (splitChar '/' n.data).tail, ¬ p = [] ∧ ¬ p = ['.'] ∧ ¬ p = ['.', '.']) ∧
    (∀ c ∈ n.data, ¬ c.toNat = 0 ∧ isRustControl c = false) ∧
    (∀ p ∈ splitChar '/' n.data, utf8Len p ≤ MAX_NAME_LEN) ∧
    utf8Len n.data ≤ MAX_PATH_LEN := by
  obtain ⟨stack, h1, h2, h3, h4, h5⟩ := normalize_eq_ok h
  obtain ⟨hplain, hnosl, hmem⟩ := normalize_ok_stack_plain (s := s) h3
  have hforb : ∀ c ∈ assemble stack, has_forbidden c = false :=
    assemble_forbidden_false h2 hmem
  have hchars : ∀ c ∈ n.data, ¬ c.toNat = 0 ∧ isRustControl c = false := by
    intro c hc
    have := hforb c (h4 ▸ hc)
    simp only [has_forbidden, Bool.or_eq_false_iff] at this
    refine ⟨?_, this.2.1⟩
    have := this.1
    simpa using this
  cases n with
  | mk d =>
    have h4' : d = assemble stack := h4
    subst h4'
    cases stack with
    | nil =>
      have hroot : String.mk (assemble []) = "/" := by decide
      refine ⟨by decide, fun _ => by decide, fun hne => absurd hroot hne, hchars,
        by decide, by decide⟩
    | cons q qs =>
      have hsplit : splitChar '/' (assemble (q :: qs)) = [] :: q :: qs :=
        splitChar_assemble (by simp) hnosl
      have hne : ¬ String.mk (assemble (q :: qs)) = "/" := by
        intro e
        have hd : assemble (q :: qs) = ['/'] := congrArg String.data e
        have := hsplit
        rw [hd] at this
        have hq : q ∈ [[], []] := by
          rw [show splitChar '/' ['/'] = [[], []] from by decide] at this
          rw [this]
          simp
        obtain ⟨hq1, _, _, _⟩ := hplain q (List.mem_cons_self _ _)
        simp at hq
        exact hq1 hq
      refine ⟨by simp [assemble, startsWithSlash], fun e => absurd e hne,
        fun _ => ?_, hchars, ?_, h5⟩
      · rw [hsplit]
        refine ⟨rfl, ?_⟩
        intro p hp
        obtain ⟨p1, p2, p3, _⟩ := hplain p (by simpa using hp)
        exact ⟨p1, p2, p3⟩
      · intro p hp
        rw [hsplit] at hp
        rcases List.mem_cons.mp hp with e | e
        · subst e; decide
        · exact (hplain p e).2.2.2

/-- C3 witness: the invariant at the concrete pair
`normalize "/a//b/../c/./d/" = ok "/a/c/d"`. -/
theorem C3_normal_form_invariant_witness :
    startsWithSlash (String.data "/a/c/d") = true ∧
    ("/a/c/d" = "/" → splitChar '/' (String.data "/a/c/d") = [[], []]) ∧
    (¬ "/a/c/d" = "/" → (splitChar '/' (String.data "/a/c/d")).head? = some [] ∧
      ∀ p ∈ (splitChar '/' (String.data "/a/c/d")).tail,
        ¬ p = [] ∧ ¬ p = ['.'] ∧ ¬ p = ['.', '.']) ∧
    (∀ c ∈ String.data "/a/c/d", ¬ c.toNat = 0 ∧ isRustControl c = false) ∧
    (∀ p ∈ splitChar '/' (String.data "/a/c/d"), utf8Len p ≤ MAX_NAME_LEN) ∧
    utf8Len (String.data "/a/c/d") ≤ MAX_PATH_LEN :=
  C3_normal_form_invariant "/a//b/../c/./d/" "/a/c/d" (by decide)

/-! ## Hex rendering lemmas -/

theorem hexAux_zero (digit : Nat → Char) : hexAux digit 0 = [] := by
  rw [hexAux]
  exact dif_pos rfl

theorem hexAux_ne_zero (digit : Nat → Char) {n : Nat} (h : n ≠ 0) :
    hexAux digit n = hexAux digit (n / 16) ++ [digit (n % 16)] := by
  rw [hexAux]
  exact dif_neg h

theorem hexAux_small (digit : Nat → Char) {n : Nat} (h1 : n ≠ 0) (h2 : n < 16) :
    hexAux digit n = [digit n] := by
  rw [hexAux_ne_zero digit h1, Nat.div_eq_of_lt h2, hexAux_zero, Nat.mod_eq_of_lt h2,
    List.nil_append]

theorem hexAux_length_le (digit : Nat → Char) :
    ∀ k, ∀ {n : Nat}, n < 16 ^ k → (hexAux digit n).length ≤ k := by
  intro k
  induction k with
  | zero =>
    intro n h
    interval_cases n
    rw [hexAux_zero]
    rfl
  | succ k ih =>
    intro n h
    by_cases hn : n = 0
    · subst hn
      simp [hexAux_zero]
    · rw [hexAux_ne_zero digit hn]
      have : n / 16 < 16 ^ k := by
        rw [Nat.div_lt_iff_lt_mul (by norm_num)]
        calc n < 16 ^ (k + 1) := h
        _ = 16 ^ k * 16 := by ring
      have := ih this
      simp only [List.length_append, List.length_singleton]
      omega

theorem unpaddedHex_length_le (digit : Nat → Char) {k n : Nat} (hk : 1 ≤ k)
    (h : n < 16 ^ k) : (unpaddedHex digit n).length ≤ k := by
  unfold unpaddedHex
  split
  · simpa using hk
  · exact hexAux_length_le digit k h

theorem hexDigitsBE_length (digit : Nat → Char) :
    ∀ k n, (hexDigitsBE digit k n).length = k := by
  intro k
  induction k with
  | zero => intro n; rfl
  | succ k ih => intro n; simp [hexDigitsBE, ih]

theorem hexDigitsBE_succ_div (digit : Nat → Char) :
    ∀ k n, hexDigitsBE digit (k + 1) n = hexDigitsBE digit k (n / 16) ++ [digit (n % 16)] := by
  intro k
  induction k with
  | zero =>
    intro n
    simp [hexDigitsBE]
  | succ k ih =>
    intro n
    have hd : n / 16 / 16 ^ k = n / 16 ^ (k + 1) := by
      rw [Nat.div_div_eq_div_mul]
      congr 1
      ring
    calc hexDigitsBE digit (k + 2) n
        = digit (n / 16 ^ (k + 1) % 16) :: hexDigitsBE digit (k + 1) n := rfl
      _ = digit (n / 16 ^ (k + 1) % 16) :: (hexDigitsBE digit k (n / 16) ++ [digit (n % 16)]) := by
          rw [ih n]
      _ = (digit (n / 16 / 16 ^ k % 16) :: hexDigitsBE digit k (n / 16)) ++ [digit (n % 16)] := by
          rw [hd]
          simp
      _ = hexDigitsBE digit (k + 1) (n / 16) ++ [digit (n % 16)] := rfl

theorem hexAux_eq_hexDigitsBE (digit : Nat → Char) :
    ∀ k, ∀ {n : Nat}, 16 ^ k ≤ n → n < 16 ^ (k + 1) →
      hexAux digit n = hexDigitsBE digit (k + 1) n := by
  intro k
  induction k with
  | zero =>
    intro n h1 h2
    have h1' : 1 ≤ n := by simpa using h1
    have h2' : n < 16 := by simpa using h2
    rw [hexAux_small digit (by omega) h2']
    simp [hexDigitsBE, Nat.mod_eq_of_lt h2', Nat.div_eq_of_lt h2']
  | succ k ih =>
    intro n h1 h2
    have hn : n ≠ 0 := by
      have : 0 < 16 ^ (k + 1) := Nat.pos_pow_of_pos _ (by norm_num)
      omega
    rw [hexAux_ne_zero digit hn]
    have hlo : 16 ^ k ≤ n / 16 := by
      rw [Nat.le_div_iff_mul_le (by norm_num)]
      calc 16 ^ k * 16 = 16 ^ (k + 1) := by ring
      _ ≤ n := h1
    have hhi : n / 16 < 16 ^ (k + 1) := by
      rw [Nat.div_lt_iff_lt_mul (by norm_num)]
      calc n < 16 ^ (k + 2) := h2
      _ = 16 ^ (k + 1) * 16 := by ring
    rw [ih hlo hhi, ← hexDigitsBE_succ_div]

theorem hexDigitsBE_eq_padZeros (digit : Nat → Char) (h0 : digit 0 = '0') :
    ∀ k, ∀ {n : Nat}, n < 16 ^ (k + 1) →
      hexDigitsBE digit (k + 1) n = padZeros (k + 1) (unpaddedHex digit n) := by
  intro k
  induction k with
  | zero =>
    intro n h
    have h' : n < 16 := by simpa using h
    by_cases hn : n = 0
    · subst hn
      simp [hexDigitsBE, padZeros, unpaddedHex, h0]
    · rw [show hexDigitsBE digit 1 n = [digit (n % 16)] from by simp [hexDigitsBE]]
      rw [Nat.mod_eq_of_lt h']
      unfold unpaddedHex
      rw [if_neg hn, hexAux_small digit hn h']
      simp [padZeros]
  | succ k ih =>
    intro n h
    by_cases hcase : n < 16 ^ (k + 1)
    · have hdiv : n / 16 ^ (k + 1) = 0 := Nat.div_eq_of_lt hcase
      have hstep : hexDigitsBE digit (k + 2) n =
          digit (n / 16 ^ (k + 1) % 16) :: hexDigitsBE digit (k + 1) n := rfl
      rw [hstep, hdiv, ih hcase]
      have hlen : (unpaddedHex digit n).length ≤ k + 1 :=
        unpaddedHex_length_le digit (by omega) hcase
      simp only [padZeros, Nat.zero_mod, h0]
      rw [show k + 2 - (unpaddedHex digit n).length =
        (k + 1 - (unpaddedHex digit n).length) + 1 from by omega]
      rw [List.replicate_succ]
      simp
    · have h1 : 16 ^ (k + 1) ≤ n := Nat.le_of_not_lt hcase
      have hn : n ≠ 0 := by
        have : 0 < 16 ^ (k + 1) := Nat.pos_pow_of_pos _ (by norm_num)
        omega
      have := hexAux_eq_hexDigitsBE digit (k + 1) h1 h
      unfold unpaddedHex
      rw [if_neg hn, ← this]
      have hlen : (hexAux digit n).length = k + 2 := by
        rw [this, hexDigitsBE_length]
      unfold padZeros
      rw [hlen]
      simp

theorem hexDigitsBE_mem (digit : Nat → Char) :
    ∀ k n, ∀ c ∈ hexDigitsBE digit k n, ∃ m, m < 16 ∧ c = digit m := by
  intro k
  induction k with
  | zero => intro n c hc; simp [hexDigitsBE] at hc
  | succ k ih =>
    intro n c hc
    rcases List.mem_cons.mp hc with h | h
    · exact ⟨n / 16 ^ k % 16, Nat.mod_lt _ (by norm_num), h⟩
    · exact ih n c h

theorem hexDecode_hexDigitsBE (digit : Nat → Char)
    (hv : ∀ m, m < 16 → hexVal (digit m) = m) :
    ∀ k, ∀ {n a : Nat},
      List.foldl (fun a c => a * 16 + hexVal c) a (hexDigitsBE digit k n) =
        a * 16 ^ k + n % 16 ^ k := by
  intro k
  induction k with
  | zero =>
    intro n a
    simp [hexDigitsBE, Nat.mod_one]
  | succ k ih =>
    intro n a
    have hstep : hexDigitsBE digit (k + 1) n =
        digit (n / 16 ^ k % 16) :: hexDigitsBE digit k n := rfl
    rw [hstep]
    simp only [List.foldl_cons]
    rw [ih, hv _ (Nat.mod_lt _ (by norm_num))]
    have hx : n % 16 ^ (k + 1) = n / 16 ^ k % 16 * 16 ^ k + n % 16 ^ k := by
      have e2 : (16 : Nat) ^ k * 16 = 16 ^ (k + 1) := by ring
      have eA : n % 16 ^ (k + 1) / 16 ^ k = n / 16 ^ k % 16 := by
        rw [← e2]
        exact Nat.mod_mul_right_div_self n (16 ^ k) 16
      have eB : n % 16 ^ (k + 1) % 16 ^ k = n % 16 ^ k :=
        Nat.mod_mod_of_dvd n (pow_dvd_pow 16 (Nat.le_succ k))
      calc n % 16 ^ (k + 1)
          = 16 ^ k * (n % 16 ^ (k + 1) / 16 ^ k) + n % 16 ^ (k + 1) % 16 ^ k :=
            (Nat.div_add_mod _ _).symm
        _ = n / 16 ^ k % 16 * 16 ^ k + n % 16 ^ k := by
            rw [eA, eB, Nat.mul_comm]
    rw [hx]
    ring

/-- C8 counterexample: the claim derives the short form from the *unpadded*
hex encoding, but the `Simple` encoding `short` slices is zero-padded to 32
digits: for the identifier value 1 the code returns `"00000000"` while the
first 8 characters of the unpadded encoding `"1"` are `"1"`. -/
theorem C8_counterexample :
    DatanodeId.short 1 = "00000000" ∧
    (unpaddedHex hexDigitLower 1).take 8 = ['1'] ∧
    ¬ (DatanodeId.short 1).data = (unpaddedHex hexDigitLower 1).take 8 := by
  have h1 : DatanodeId.short 1 = "00000000" := by decide
  have h2 : unpaddedHex hexDigitLower 1 = ['1'] := by
    unfold unpaddedHex
    rw [if_neg (by norm_num), hexAux_small hexDigitLower (by norm_num) (by norm_num)]
    decide
  refine ⟨h1, by rw [h2]; decide, ?_⟩
  rw [h1, h2]
  decide

/-- C8 amended: for every 128-bit identifier value, `DatanodeId::short`
returns exactly the first 8 characters of the value's full lowercase
*32-digit zero-padded* hexadecimal (no hyphens) encoding, and the result is
always 8 lowercase hex characters. -/
theorem C8_short_form (n : Nat) (h : n < 2 ^ 128) :
    (DatanodeId.short n).data = (padZeros 32 (unpaddedHex hexDigitLower n)).take 8 ∧
    (DatanodeId.short n).data.length = 8 ∧
    ∀ c ∈ (DatanodeId.short n).data, isLowerHexChar c = true := by
  have h16 : n < 16 ^ 32 := by
    have : (16 : Nat) ^ 32 = 2 ^ 128 := by norm_num
    omega
  refine ⟨?_, ?_, ?_⟩
  · show (encodeSimpleLower n).take 8 = _
    rw [encodeSimpleLower, hexDigitsBE_eq_padZeros hexDigitLower (by decide) 31 h16]
  · show ((encodeSimpleLower n).take 8).length = 8
    rw [encodeSimpleLower, List.length_take, hexDigitsBE_length]
    decide
  · intro c hc
    have hc' : c ∈ hexDigitsBE hexDigitLower 32 n := List.mem_of_mem_take hc
    obtain ⟨m, hm, e⟩ := hexDigitsBE_mem hexDigitLower 32 n c hc'
    subst e
    have hall : ∀ m, m < 16 → isLowerHexChar (hexDigitLower m) = true := by decide
    exact hall m hm

/-- C8 witness: the amended statement at the fixed test identifier
`550e8400-e29b-41d4-a716-446655440000`. -/
theorem C8_short_form_witness :
    (0x550e8400e29b41d4a716446655440000 : Nat) < 2 ^ 128 ∧
    ((DatanodeId.short 0x550e8400e29b41d4a716446655440000).data =
        (padZeros 32 (unpaddedHex hexDigitLower 0x550e8400e29b41d4a716446655440000)).take 8 ∧
      (DatanodeId.short 0x550e8400e29b41d4a716446655440000).data.length = 8 ∧
      ∀ c ∈ (DatanodeId.short 0x550e8400e29b41d4a716446655440000).data,
        isLowerHexChar c = true) :=
  ⟨by decide, C8_short_form 0x550e8400e29b41d4a716446655440000 (by decide)⟩

/-- C9: each error variant displays as its fixed template with the field
values interpolated verbatim; in particular `ChecksumMismatch` renders the
two 32-bit checksums as 8-digit zero-padded uppercase hex (the 8 digits
decode back to the field value), and `InvalidPath` interpolates the path and
reason verbatim. -/
theorem C9_display_templates (b c e g : Nat)
    (p r key msg what details op during inner : String)
    (he : e < 2 ^ 32) (hg : g < 2 ^ 32) :
    HdfsError.display (.checksumMismatch b c e g) =
      "checksum mismatch (blk_" ++ Nat.repr b ++ ", chunk " ++ Nat.repr c ++
        "): expected 0x" ++ String.mk (hexDigitsBE hexDigitUpper 8 e) ++
        ", got 0x" ++ String.mk (hexDigitsBE hexDigitUpper 8 g) ∧
    (hexDigitsBE hexDigitUpper 8 e).length = 8 ∧
    hexDecode (hexDigitsBE hexDigitUpper 8 e) = e ∧
    hexDecode (hexDigitsBE hexDigitUpper 8 g) = g ∧
    HdfsError.display (.invalidPath p r) = "invalid path '" ++ p ++ "': " ++ r ∧
    HdfsError.display (.io inner) = "io: " ++ inner ∧
    HdfsError.display (.config key msg) = "config error (" ++ key ++ "): " ++ msg ∧
    HdfsError.display (.alreadyExists p) = "already exists: " ++ p ∧
    HdfsError.display (.notFound p) = "not found: " ++ p ∧
    HdfsError.display (.state what details) =
      "state error (" ++ what ++ "): " ++ details ∧
    HdfsError.display (.protocol op details) =
      "protocol error (" ++ op ++ "): " ++ details ∧
    HdfsError.display (.timeout op during) =
      "timeout during " ++ op ++ ": " ++ during := by
  have h16e : e < 16 ^ 8 := by
    have : (16 : Nat) ^ 8 = 2 ^ 32 := by norm_num
    omega
  have h16g : g < 16 ^ 8 := by
    have : (16 : Nat) ^ 8 = 2 ^ 32 := by norm_num
    omega
  have hpe : padZeros 8 (unpaddedHex hexDigitUpper e) = hexDigitsBE hexDigitUpper 8 e :=
    (hexDigitsBE_eq_padZeros hexDigitUpper (by decide) 7 h16e).symm
  have hpg : padZeros 8 (unpaddedHex hexDigitUpper g) = hexDigitsBE hexDigitUpper 8 g :=
    (hexDigitsBE_eq_padZeros hexDigitUpper (by decide) 7 h16g).symm
  have hv : ∀ m, m < 16 → hexVal (hexDigitUpper m) = m := by decide
  refine ⟨?_, hexDigitsBE_length hexDigitUpper 8 e, ?_, ?_,
    rfl, rfl, rfl, rfl, rfl, rfl, rfl, rfl⟩
  · have hd : HdfsError.display (.checksumMismatch b c e g) =
        "checksum mismatch (blk_" ++ Nat.repr b ++ ", chunk " ++ Nat.repr c ++
        "): expected 0x" ++ String.mk (padZeros 8 (unpaddedHex hexDigitUpper e)) ++
        ", got 0x" ++ String.mk (padZeros 8 (unpaddedHex hexDigitUpper g)) := rfl
    rw [hd, hpe, hpg]
  · show List.foldl (fun a c => a * 16 + hexVal c) 0 (hexDigitsBE hexDigitUpper 8 e) = e
    rw [hexDecode_hexDigitsBE hexDigitUpper hv 8, Nat.zero_mul, Nat.zero_add]
    exact Nat.mod_eq_of_lt h16e
  · show List.foldl (fun a c => a * 16 + hexVal c) 0 (hexDigitsBE hexDigitUpper 8 g) = g
    rw [hexDecode_hexDigitsBE hexDigitUpper hv 8, Nat.zero_mul, Nat.zero_add]
    exact Nat.mod_eq_of_lt h16g

/-- C9 witness: the repository test values (`checksum_mismatch_display` and
`invalid_path_display` in error.rs) instantiated in the template theorem. -/
theorem C9_display_templates_witness :
    HdfsError.display (.checksumMismatch 42 7 0xDEADBEEF 0xFEEDBEEF) =
      "checksum mismatch (blk_" ++ Nat.repr 42 ++ ", chunk " ++ Nat.repr 7 ++
        "): expected 0x" ++ String.mk (hexDigitsBE hexDigitUpper 8 0xDEADBEEF) ++
        ", got 0x" ++ String.mk (hexDigitsBE hexDigitUpper 8 0xFEEDBEEF) ∧
    (hexDigitsBE hexDigitUpper 8 0xDEADBEEF).length = 8 ∧
    hexDecode (hexDigitsBE hexDigitUpper 8 0xDEADBEEF) = 0xDEADBEEF ∧
    hexDecode (hexDigitsBE hexDigitUpper 8 0xFEEDBEEF) = 0xFEEDBEEF ∧
    HdfsError.display (.invalidPath "/a/b" "control character not allowed") =
      "invalid path '" ++ "/a/b" ++ "': " ++ "control character not allowed" ∧
    HdfsError.display (.io "file missing") = "io: " ++ "file missing" ∧
    HdfsError.display (.config "default_block_size" "must be positive") =
      "config error (" ++ "default_block_size" ++ "): " ++ "must be positive" ∧
    HdfsError.display (.alreadyExists "/a/b") = "already exists: " ++ "/a/b" ∧
    HdfsError.display (.notFound "/a/b") = "not found: " ++ "/a/b" ∧
    HdfsError.display (.state "complete" "file not under construction") =
      "state error (" ++ "complete" ++ "): " ++ "file not under construction" ∧
    HdfsError.display (.protocol "AddBlock" "file not under construction") =
      "protocol error (" ++ "AddBlock" ++ "): " ++ "file not under construction" ∧
    HdfsError.display (.timeout "AddBlock" "transfer") =
      "timeout during " ++ "AddBlock" ++ ": " ++ "transfer" :=
  C9_display_templates 42 7 0xDEADBEEF 0xFEEDBEEF "/a/b"
    "control character not allowed" "default_block_size" "must be positive"
    "complete" "file not under construction" "AddBlock" "transfer" "file missing"
    (by decide) (by decide)

/-! ## DatanodeId parsing lemmas -/

theorem dropWhile_append_all {p : Char → Bool} :
    ∀ {w l : List Char}, (∀ c ∈ w, p c = true) →
      List.dropWhile p (w ++ l) = List.dropWhile p l := by
  intro w
  induction w with
  | nil => intro l _; simp
  | cons a w ih =>
    intro l h
    rw [List.cons_append, List.dropWhile_cons, h a (List.mem_cons_self _ _)]
    simp only [if_true]
    exact ih (fun c hc => h c (List.mem_cons_of_mem a hc))

theorem rustTrim_pad {w1 w2 s : List Char}
    (h1 : ∀ c ∈ w1, isRustWhitespace c = true)
    (h2 : ∀ c ∈ w2, isRustWhitespace c = true) :
    rustTrim (w1 ++ s ++ w2) = rustTrim s := by
  unfold rustTrim
  rw [List.append_assoc, dropWhile_append_all h1, List.dropWhile_append]
  by_cases hs : (List.dropWhile isRustWhitespace s).isEmpty
  · rw [if_pos hs]
    have hw2 : List.dropWhile isRustWhitespace w2 = [] :=
      List.dropWhile_eq_nil_iff.mpr h2
    have hsnil : List.dropWhile isRustWhitespace s = [] := by
      cases h : List.dropWhile isRustWhitespace s with
      | nil => rfl
      | cons x xs => rw [h] at hs; simp at hs
    rw [hw2, hsnil]
  · rw [if_neg hs, List.reverse_append]
    rw [dropWhile_append_all (fun c hc => h2 c (List.mem_reverse.mp hc))]

/-- C10: `DatanodeId`'s string parsing trims surrounding whitespace first, so
wrapping a successfully-parsed string in any leading and trailing whitespace
parses to the same identifier. -/
theorem C10_from_str_trims (s : String) (u : Nat) (w1 w2 : List Char)
    (h1 : ∀ c ∈ w1, isRustWhitespace c = true)
    (h2 : ∀ c ∈ w2, isRustWhitespace c = true)
    (hs : DatanodeId.from_str s = some u) :
    DatanodeId.from_str (String.mk (w1 ++ s.data ++ w2)) = some u := by
  unfold DatanodeId.from_str at hs ⊢
  show uuidParseStr (rustTrim (w1 ++ s.data ++ w2)) = some u
  rw [rustTrim_pad h1 h2]
  exact hs

/-- C10 witness: the fixed test identifier surrounded by two spaces and a
newline (`fromstr_parses_and_trims` in ids.rs). -/
theorem C10_from_str_trims_witness :
    DatanodeId.from_str (String.mk
        ([' ', ' '] ++ (String.data "550e8400-e29b-41d4-a716-446655440000") ++
          [Char.ofNat 10])) =
      some 0x550e8400e29b41d4a716446655440000 :=
  C10_from_str_trims "550e8400-e29b-41d4-a716-446655440000"
    0x550e8400e29b41d4a716446655440000 [' ', ' '] [Char.ofNat 10]
    (by decide) (by decide) (by decide)

end Hdfs
